import Mathlib

/-!
Verification development for the exchange-rates ETL repository.

The Python sources embedded here (shallowly, as executable Lean functions):
- `scripts/backfill_historical_rates.py`: `chunk_ranges`, `daterange`,
  `load_existing_records`, and the start-date clamp in `main`.
- `scripts/extract_transform.py`: the JSON flatten loop, the
  `exchange_date` parse/dropna/sort stage, the `dim_time` calendar build,
  and the incremental fact merge (existing-key window filter, surrogate-id
  assignment, append).
- `scripts/create_dim_currency.py`: the `MERGE` statement semantics.
- `scripts/rebuild_dim_time.py`: shares the calendar attribute formulas.

Conventions of the embedding:
- Calendar dates are the structure `CivilDate` (year/month/day as integers);
  day-level arithmetic (`timedelta`) is done through the civil-calendar
  day-number conversion `daysFromCivil` / `civilFromDays` (proleptic
  Gregorian, day 0 = 1970-01-01, the same calendar Python `datetime.date`
  and pandas use).
- JSON values are `JValue`; a Python `dict` is an association list in
  insertion order, mirroring `dict.items()` iteration order.
- Machine integers are `Int` (Python ints are unbounded, so no wrap-around
  modelling is needed); Python `//` on ints is `Int.fdiv` (floor division).
- External effects (BigQuery client, HTTP) are modelled as explicit state:
  the warehouse is the `Store` structure and each script's write path is a
  pure function on it.
-/

/-- JSON-like values as loaded by `json.load`.  An object keeps its fields
as an association list in insertion order (Python dicts preserve it). -/
inductive JValue where
  | null : JValue
  | bool (b : Bool) : JValue
  | num (q : ℚ) : JValue
  | str (s : String) : JValue
  | arr (elems : List JValue) : JValue
  | obj (fields : List (String × JValue)) : JValue

/-- Python `d.get(k)`: first binding of `k`, or `None` when absent. -/
def jGet (fields : List (String × JValue)) (k : String) : Option JValue :=
  (fields.find? (fun p => decide (p.1 = k))).map (fun p => p.2)

/-- Whether a `JValue` is a JSON array (`isinstance(data, list)`). -/
def JValue.isArray : JValue → Bool
  | .arr _ => true
  | _ => false

/-- A calendar date, as Python's `datetime.date` (year, month, day). -/
structure CivilDate where
  year : ℤ
  month : ℤ
  day : ℤ
deriving DecidableEq, Repr

/-- Gregorian leap-year rule. -/
def isLeapYear (y : ℤ) : Bool :=
  (decide (y % 4 = 0) && !decide (y % 100 = 0)) || decide (y % 400 = 0)

/-- Number of days in a month of a given year. -/
def daysInMonth (y m : ℤ) : ℤ :=
  if m = 2 then (if isLeapYear y then 29 else 28)
  else if m = 4 ∨ m = 6 ∨ m = 9 ∨ m = 11 then 30
  else 31

/-- Validity of a civil date (Python `date` accepts years 1..9999). -/
def CivilDate.isValid (d : CivilDate) : Bool :=
  decide (1 ≤ d.year) && decide (d.year ≤ 9999) &&
  decide (1 ≤ d.month) && decide (d.month ≤ 12) &&
  decide (1 ≤ d.day) && decide (d.day ≤ daysInMonth d.year d.month)

/-- Day number of a civil date, with day 0 = 1970-01-01 (the standard
civil-from-days algorithm; proleptic Gregorian, matching Python's
`date.toordinal` up to the fixed offset). -/
def daysFromCivil (dt : CivilDate) : ℤ :=
  let y := if dt.month ≤ 2 then dt.year - 1 else dt.year
  let era := Int.fdiv y 400
  let yoe := y - era * 400
  let mp := if 2 < dt.month then dt.month - 3 else dt.month + 9
  let doy := Int.fdiv (153 * mp + 2) 5 + dt.day - 1
  let doe := yoe * 365 + Int.fdiv yoe 4 - Int.fdiv yoe 100 + doy
  era * 146097 + doe - 719468

/-- Inverse of `daysFromCivil`. -/
def civilFromDays (z0 : ℤ) : CivilDate :=
  let z := z0 + 719468
  let era := Int.fdiv z 146097
  let doe := z - era * 146097
  let yoe := Int.fdiv (doe - Int.fdiv doe 1460 + Int.fdiv doe 36524 - Int.fdiv doe 146096) 365
  let y := yoe + era * 400
  let doy := doe - (365 * yoe + Int.fdiv yoe 4 - Int.fdiv yoe 100)
  let mp := Int.fdiv (5 * doy + 2) 153
  let d := doy - Int.fdiv (153 * mp + 2) 5 + 1
  let m := if mp < 10 then mp + 3 else mp - 9
  { year := if m ≤ 2 then y + 1 else y, month := m, day := d }

/-- `date + timedelta(days = -k)`: shift a date by whole days. -/
def subDays (d : CivilDate) (k : ℤ) : CivilDate :=
  civilFromDays (daysFromCivil d - k)

/-- pandas `.dt.dayofweek` / Python `date.weekday()`: Monday = 0 ..
Sunday = 6.  Day 0 (1970-01-01) was a Thursday (= 3). -/
def pyWeekday (d : CivilDate) : ℤ :=
  (daysFromCivil d + 3) % 7

/-- Split a character list on the `-` character (for ISO date parsing). -/
def splitDash (l : List Char) : List (List Char) :=
  l.foldr
    (fun c acc =>
      if c = '-' then [] :: acc
      else
        match acc with
        | g :: gs => (c :: g) :: gs
        | [] => [[c]])
    [[]]

/-- Parse a non-empty all-digit character list as a natural number. -/
def digitsToNat : List Char → Option ℕ
  | [] => none
  | l =>
    l.foldl
      (fun acc c =>
        acc.bind (fun n => if c.isDigit then some (n * 10 + (c.toNat - 48)) else none))
      (some 0)

/-- Parse an ISO `YYYY-MM-DD` string into a valid civil date.  This models
`pd.to_datetime(..., errors="coerce")` on the date strings the pipeline
itself produces (`date.isoformat()`); other textual or numeric formats
pandas would accept are out of scope and map to `none`. -/
def parseIsoDate (s : String) : Option CivilDate :=
  match splitDash s.toList with
  | [ys, ms, ds] =>
    match digitsToNat ys, digitsToNat ms, digitsToNat ds with
    | some y, some m, some d =>
      let dt : CivilDate := { year := (y : ℤ), month := (m : ℤ), day := (d : ℤ) }
      if dt.isValid then some dt else none
    | _, _, _ => none
  | _ => none

/-- `int(date.strftime("%Y%m%d"))`: concatenating the zero-padded year,
month and day in decimal equals this arithmetic expression. -/
def dateKey (d : CivilDate) : ℤ :=
  d.year * 10000 + d.month * 100 + d.day

/-- Outcome of opening and JSON-decoding a file, as far as the scripts
distinguish it: the file may be absent (`FileNotFoundError`), be present
but fail to decode (`json.JSONDecodeError`, e.g. a truncated write), or
decode to a JSON value. -/
inductive JsonSource where
  | missing : JsonSource
  | invalid : JsonSource
  | ok (v : JValue) : JsonSource

/-- `load_existing_records` from `backfill_historical_rates.py`: tolerate a
missing or undecodable cache file (and a decoded non-list) by starting from
an empty list; the known-dates set collects `item.get("date")` over the
dict entries.  The Python `set` is modelled as the list of its elements;
every theorem uses it only through membership/emptiness. -/
def load_existing_records (src : JsonSource) : List JValue × List (Option JValue) :=
  let data : List JValue :=
    match src with
    | .missing => []
    | .invalid => []
    | .ok v => match v with
      | .arr l => l
      | _ => []
  let dates := (data.filter (fun item => match item with | .obj _ => true | _ => false)).map
    (fun item => match item with | .obj fields => jGet fields ("date") | _ => none)
  (data, dates)

/-- `daterange(start, end)` from `backfill_historical_rates.py`: the days
from `start` to `end` inclusive, ascending (empty when `end < start`).
Dates are handled as day numbers (see `daysFromCivil`). -/
def daterange (start endD : ℤ) : List ℤ :=
  (List.range (endD - start + 1).toNat).map (fun i : ℕ => start + (i : ℤ))

/-- Loop body of `chunk_ranges`: `for idx in range(chunks)` with the early
`break` once `chunk_start` passes `end`.  `rem` is the number of loop
iterations still available (`chunks - idx`), which makes the recursion
structural; callers maintain `rem + idx = chunks`. -/
def chunkRangesGo (chunks : ℕ) (chunkSize endD : ℤ) :
    (rem : ℕ) → (idx : ℕ) → (chunkStart : ℤ) → List (ℤ × ℤ)
  | 0, _, _ => []
  | rem + 1, idx, chunkStart =>
    let ce0 := chunkStart + chunkSize - 1
    let chunkEnd := if idx = chunks - 1 ∨ endD < ce0 then endD else ce0
    if endD < chunkEnd + 1 then
      [(chunkStart, chunkEnd)]
    else
      (chunkStart, chunkEnd) :: chunkRangesGo chunks chunkSize endD rem (idx + 1) (chunkEnd + 1)

/-- `chunk_ranges(start, end, chunks)` from `backfill_historical_rates.py`.
`total_days // chunks` is Python floor division, i.e. `Int.fdiv`. -/
def chunk_ranges (start endD : ℤ) (chunks : ℕ) : List (ℤ × ℤ) :=
  let total_days := endD - start + 1
  let chunk_size := max 1 (Int.fdiv total_days (chunks : ℤ))
  chunkRangesGo chunks chunk_size endD chunks 0 start

/-- Day number of 1999-01-01, the lower clamp used by the backfill. -/
def epoch1999 : ℤ := daysFromCivil { year := 1999, month := 1, day := 1 }

/-- Start-date computation in `main` of `backfill_historical_rates.py`:
`end_date - timedelta(days=years*365) + timedelta(days=1)`, clamped up to
1999-01-01. -/
def computeStartDate (endDate : ℤ) (years : ℕ) : ℤ :=
  let s := endDate - (years : ℤ) * 365 + 1
  if s < epoch1999 then epoch1999 else s

/-- All dates the backfill walk visits: every chunk range expanded through
`daterange`, in order. -/
def datesWalked (start endD : ℤ) (chunks : ℕ) : List ℤ :=
  (chunk_ranges start endD chunks).flatMap (fun p => daterange p.1 p.2)

/-- One element of the `rows` list built by the flatten loop of
`extract_transform.py`: the per-target dict appended for each key of
`entry["rates"]`.  Fields that the loop reads with `.get` stay `Option`
(`None` when absent). -/
structure RawRow where
  base_currency : Option JValue
  target_currency : String
  exchange_date : Option JValue
  rate : JValue
  timestamp : Option JValue
  fetched_at : Option JValue

/-- One iteration of the flatten loop of `extract_transform.py`: a
non-dict entry, or one whose `rates` is missing or not a dict, contributes
nothing; otherwise one row per `rates` item, in dict order. -/
def entryRows (entry : JValue) : List RawRow :=
  match entry with
  | .obj fields =>
    match jGet fields ("rates") with
    | some (.obj rates) =>
      rates.map (fun tr =>
        { base_currency := jGet fields ("base")
          target_currency := tr.1
          exchange_date := jGet fields ("date")
          rate := tr.2
          timestamp := jGet fields ("timestamp")
          fetched_at := jGet fields ("fetched_at") })
    | _ => []
  | _ => []

/-- The flatten loop (`for entry in data: ...`) of `extract_transform.py`. -/
def flatten (data : List JValue) : List RawRow :=
  data.flatMap entryRows

/-- A row after the `pd.to_datetime` / `dropna` stage: the date parsed. -/
structure ParsedRow where
  base_currency : Option JValue
  target_currency : String
  exchange_date : CivilDate
  rate : JValue
  timestamp : Option JValue
  fetched_at : Option JValue

/-- The date field as seen by `pd.to_datetime(..., errors="coerce")`:
strings go through `parseIsoDate`, anything else coerces to `NaT`. -/
def parseDateField : Option JValue → Option CivilDate
  | some (.str s) => parseIsoDate s
  | _ => none

/-- `df["exchange_date"] = pd.to_datetime(...); df.dropna(subset=["exchange_date"])`:
keep, with its parsed date, exactly the rows whose date parses. -/
def cleanRows (rows : List RawRow) : List ParsedRow :=
  rows.filterMap (fun r =>
    (parseDateField r.exchange_date).map (fun d =>
      { base_currency := r.base_currency
        target_currency := r.target_currency
        exchange_date := d
        rate := r.rate
        timestamp := r.timestamp
        fetched_at := r.fetched_at }))

/-- Sort key of `df.sort_values(by=["exchange_date", "target_currency"])`.
`dateKey` is strictly monotone in chronological order on valid dates, so
comparing it compares the dates. -/
def rowLE (a b : ParsedRow) : Bool :=
  decide (dateKey a.exchange_date < dateKey b.exchange_date) ||
    (decide (dateKey a.exchange_date = dateKey b.exchange_date) &&
      decide (a.target_currency ≤ b.target_currency))

/-- Insert into a sorted list (helper for `insertionSort`). -/
def insertSorted (le : α → α → Bool) (x : α) : List α → List α
  | [] => [x]
  | y :: ys => if le x y then x :: y :: ys else y :: insertSorted le x ys

/-- Insertion sort; models `sort_values` (pandas does not promise a stable
order among ties here, so any correct sort is a faithful refinement). -/
def insertionSort (le : α → α → Bool) : List α → List α
  | [] => []
  | x :: xs => insertSorted le x (insertionSort le xs)

/-- The sorted, cleaned row list the rest of `extract_transform.py` works on. -/
def pipelineRows (data : List JValue) : List ParsedRow :=
  insertionSort rowLE (cleanRows (flatten data))

/-- Python `str(...)` applied to an optional JSON field (the
`astype(str)` casts in `extract_transform.py`).  `str(None)` is the
string `None`; non-string JSON values would print their Python repr,
which no theorem inspects (placeholder). -/
def pyStr : Option JValue → String
  | none => "None"
  | some (.str s) => s
  | some _ => "<repr>"

/-- `Decimal(str(v)).quantize(Decimal("0.000001"), rounding=ROUND_HALF_UP)`:
round to 6 fractional digits, ties away from zero. -/
def roundHalfUp6 (q : ℚ) : ℚ :=
  if 0 ≤ q then ((q * 1000000 + 1 / 2).floor : ℚ) / 1000000
  else -((((-q) * 1000000 + 1 / 2).floor : ℚ) / 1000000)

/-- `pd.to_numeric(rate, errors="coerce")` followed by `to_decimal`:
numbers are rounded half-up to 6 digits, anything non-numeric becomes
`None`.  (Numeric strings, which pandas would also coerce, do not occur in
the API payloads and are not modelled.) -/
def parseRate : JValue → Option ℚ
  | .num q => some (roundHalfUp6 q)
  | _ => none

/-- One row of `dim_time`, as built by `extract_transform.py` /
`rebuild_dim_time.py`. -/
structure CalendarRow where
  date_key : ℤ
  date : CivilDate
  day_of_week : ℤ
  day_name : String
  is_weekend : Bool
  week_start_date : CivilDate
  month : ℤ
  month_name : String
  quarter : ℤ
  year : ℤ

/-- English weekday name for a `pyWeekday` index (pandas `dt.day_name()`). -/
def dayName (w : ℤ) : String :=
  if w = 0 then "Monday" else if w = 1 then "Tuesday" else if w = 2 then "Wednesday"
  else if w = 3 then "Thursday" else if w = 4 then "Friday" else if w = 5 then "Saturday"
  else "Sunday"

/-- English month name (pandas `strftime("%B")`). -/
def monthName (m : ℤ) : String :=
  if m = 1 then "January" else if m = 2 then "February" else if m = 3 then "March"
  else if m = 4 then "April" else if m = 5 then "May" else if m = 6 then "June"
  else if m = 7 then "July" else if m = 8 then "August" else if m = 9 then "September"
  else if m = 10 then "October" else if m = 11 then "November" else "December"

/-- The per-date attribute computation of the `dim_time` build
(`extract_transform.py` lines 88-98; `rebuild_dim_time.py` lines 47-56):
`date_key` from `strftime("%Y%m%d")`, `day_of_week = dt.dayofweek + 1`,
`week_start_date = date - to_timedelta(dt.dayofweek days)`,
`is_weekend = day_of_week.isin([6, 7])`, `quarter = dt.quarter`. -/
def calRow (d : CivilDate) : CalendarRow :=
  { date_key := dateKey d
    date := d
    day_of_week := pyWeekday d + 1
    day_name := dayName (pyWeekday d)
    is_weekend := decide (pyWeekday d + 1 = 6) || decide (pyWeekday d + 1 = 7)
    week_start_date := subDays d (pyWeekday d)
    month := d.month
    month_name := monthName d.month
    quarter := Int.fdiv (d.month - 1) 3 + 1
    year := d.year }

/-- One row of `fact_exchange_rate`.  `timestamp`/`fetched_at` are carried
verbatim from the payload (their pandas conversion to UTC instants is
representation only and no claim inspects it). -/
structure FactRow where
  id : ℤ
  date_key : ℤ
  base_currency : String
  target_currency : String
  rate : Option ℚ
  timestamp : Option JValue
  fetched_at : Option JValue

/-- A fact row as prepared before id assignment (the `df_to_insert`
columns other than `id`). -/
structure CandidateRow where
  date_key : ℤ
  base_currency : String
  target_currency : String
  rate : Option ℚ
  timestamp : Option JValue
  fetched_at : Option JValue

/-- The dedup key `(date_key, base_currency, target_currency)`. -/
def CandidateRow.key (c : CandidateRow) : ℤ × String × String :=
  (c.date_key, c.base_currency, c.target_currency)

/-- The dedup key of a stored fact row. -/
def FactRow.key (r : FactRow) : ℤ × String × String :=
  (r.date_key, r.base_currency, r.target_currency)

/-- The warehouse state the ETL scripts read and write: the fact table and
the calendar dimension. -/
structure Store where
  fact : List FactRow
  dim_time : List CalendarRow

/-- The duplicate-detection query of `extract_transform.py` (lines
256-272): `SELECT date_key, base_currency, target_currency FROM fact WHERE
date_key BETWEEN lo AND hi`. -/
def queryExistingKeys (s : Store) (lo hi : ℤ) : List (ℤ × String × String) :=
  (s.fact.filter (fun r => decide (lo ≤ r.date_key) && decide (r.date_key ≤ hi))).map FactRow.key

/-- `SELECT COALESCE(MAX(id), 0) FROM fact`. -/
def maxId (s : Store) : ℤ :=
  s.fact.foldl (fun m r => max m r.id) 0

/-- `df_to_insert["id"] = range(start_id, start_id + len(df_to_insert))`:
attach consecutive ids starting at `startId`, preserving order. -/
def assignIds (startId : ℤ) : List CandidateRow → List FactRow
  | [] => []
  | c :: cs =>
    { id := startId
      date_key := c.date_key
      base_currency := c.base_currency
      target_currency := c.target_currency
      rate := c.rate
      timestamp := c.timestamp
      fetched_at := c.fetched_at } :: assignIds (startId + 1) cs

/-- `int(df_to_insert["date_key"].min())` over a nonempty candidate batch
with head `c` and tail `cs`. -/
def candLo (c : CandidateRow) (cs : List CandidateRow) : ℤ :=
  cs.foldl (fun m x => min m x.date_key) c.date_key

/-- `int(df_to_insert["date_key"].max())` over a nonempty candidate batch. -/
def candHi (c : CandidateRow) (cs : List CandidateRow) : ℤ :=
  cs.foldl (fun m x => max m x.date_key) c.date_key

/-- The duplicate filter of `extract_transform.py` (lines 274-281): keep
the candidates whose key is absent from the existing-key set queried over
the batch's `date_key` window. -/
def mergeNewRows (cands : List CandidateRow) (s : Store) : List CandidateRow :=
  match cands with
  | [] => []
  | c :: cs =>
    (c :: cs).filter
      (fun x => decide (x.key ∉ queryExistingKeys s (candLo c cs) (candHi c cs)))

/-- The incremental fact merge of `extract_transform.py` (lines 253-311):
window the existing keys, drop duplicate candidates, assign the surrogate
id block starting at `max id + 1`, append, and report how many rows were
inserted (0 when everything was a duplicate — not an error). -/
def merge (cands : List CandidateRow) (s : Store) : ℕ × Store :=
  match cands with
  | [] => (0, s)
  | c :: cs =>
    let newRows := mergeNewRows (c :: cs) s
    if newRows.isEmpty then (0, s)
    else
      (newRows.length, { s with fact := s.fact ++ assignIds (maxId s + 1) newRows })

/-- `drop_duplicates()` keeps the first occurrence of each date. -/
def dedupKeepFirstGo (seen : List CivilDate) : List CivilDate → List CivilDate
  | [] => []
  | d :: ds => if d ∈ seen then dedupKeepFirstGo seen ds else d :: dedupKeepFirstGo (d :: seen) ds

/-- `df["exchange_date"].drop_duplicates()`. -/
def dedupKeepFirst (l : List CivilDate) : List CivilDate :=
  dedupKeepFirstGo [] l

/-- Chronological comparison used to `sort_values()` the dimension dates. -/
def dateLE (a b : CivilDate) : Bool :=
  decide (dateKey a ≤ dateKey b)

/-- The `dim_time` date list of `extract_transform.py` lines 76-86:
distinct exchange dates, ascending. -/
def dimDates (rows : List ParsedRow) : List CivilDate :=
  insertionSort dateLE (dedupKeepFirst (rows.map (fun r => r.exchange_date)))

/-- The `date_key` resolution join of `extract_transform.py` lines 238-248:
each row's date is looked up in the freshly built `dim_time` frame; a date
with no calendar row aborts the run (`SystemExit`), modelled as `none`. -/
def resolveDateKeys (dimRows : List CalendarRow) (rows : List ParsedRow) :
    Option (List CandidateRow) :=
  rows.mapM (fun r =>
    (dimRows.find? (fun c => decide (c.date = r.exchange_date))).map (fun c =>
      { date_key := c.date_key
        base_currency := pyStr r.base_currency
        target_currency := r.target_currency
        rate := parseRate r.rate
        timestamp := r.timestamp
        fetched_at := r.fetched_at }))

/-- One completed run of `extract_transform.py` over an input batch `data`
against warehouse state `s`: flatten, parse/clean/sort, rebuild `dim_time`
from the batch's distinct dates and load it with `WRITE_TRUNCATE`, resolve
`date_key`s, then merge into the fact table with `WRITE_APPEND`.  `none`
models the `SystemExit` paths (empty batch, no parsable dates, unresolved
`date_key`); `some (n, s')` is a completed run that inserted `n` fact
rows and left the warehouse in state `s'`. -/
def runETL (data : List JValue) (s : Store) : Option (ℕ × Store) :=
  let raw := flatten data
  if raw.isEmpty then none
  else
    let rows := insertionSort rowLE (cleanRows raw)
    let dims := dimDates rows
    if dims.isEmpty then none
    else
      let dimRows := dims.map calRow
      let s1 : Store := { s with dim_time := dimRows }
      match resolveDateKeys dimRows rows with
      | none => none
      | some cands =>
        let r := merge cands s1
        some (r.1, r.2)

/-- One row of `dim_currency`. -/
structure CurrencyRow where
  currency_key : ℤ
  currency_code : String
  currency_name : Option String
deriving DecidableEq, Repr

/-- The `MERGE` statement of `create_dim_currency.py` (lines 108-115):
target rows matched by `currency_code` get `currency_name` updated from
the staging row; staging rows with no matching code are inserted.  (Codes
are unique in both tables, per the schema's unique `currency_code`.) -/
def dimCurrencyMerge (target stage : List CurrencyRow) : List CurrencyRow :=
  (target.map (fun t =>
    match stage.find? (fun s => decide (s.currency_code = t.currency_code)) with
    | some s => { t with currency_name := s.currency_name }
    | none => t))
  ++ stage.filter (fun s =>
      !(target.any (fun t => decide (t.currency_code = s.currency_code))))


/-- `chainFrom s e l`: the ranges in `l` tile the inclusive interval
`[s, e]` exactly, in order: each range starts where the previous one
stopped plus one day, the first starts at `s`, and the tiling ends exactly
at `e` (an empty tiling is allowed only for the empty interval). -/
def chainFrom (s e : ℤ) : List (ℤ × ℤ) → Prop
  | [] => s = e + 1
  | p :: rest => p.1 = s ∧ s ≤ p.2 ∧ chainFrom (p.2 + 1) e rest

theorem chainFrom_le {e : ℤ} : ∀ {l : List (ℤ × ℤ)} {s : ℤ}, chainFrom s e l → s ≤ e + 1 := by
  intro l
  induction l with
  | nil => intro s h; exact le_of_eq h
  | cons p rest ih =>
    intro s h
    obtain ⟨_, hsb, hrest⟩ := h
    have := ih hrest
    omega

theorem chunkRangesGo_chain (chunks : ℕ) (cs endD : ℤ) :
    ∀ (rem idx : ℕ) (cst : ℤ), idx + rem = chunks → 0 < rem → cst ≤ endD → 1 ≤ cs →
      chainFrom cst endD (chunkRangesGo chunks cs endD rem idx cst) := by
  intro rem
  induction rem with
  | zero => intro idx cst _ h0 _ _; exact absurd h0 (by omega)
  | succ n ih =>
    intro idx cst hsum _ hle hcs
    simp only [chunkRangesGo]
    split_ifs with h1 h2 h2
    · exact ⟨rfl, hle, rfl⟩
    · exact absurd (by omega : endD < endD + 1) h2
    · push_neg at h1
      exact ⟨rfl, by omega, by show cst + cs - 1 + 1 = endD + 1; omega⟩
    · push_neg at h1
      refine ⟨rfl, by omega, ?_⟩
      exact ih (idx + 1) (cst + cs - 1 + 1) (by omega) (by omega) (by omega) hcs

theorem chainFrom_bounds {e : ℤ} :
    ∀ {l : List (ℤ × ℤ)} {s : ℤ}, chainFrom s e l →
      ∀ p ∈ l, s ≤ p.1 ∧ p.1 ≤ p.2 ∧ p.2 ≤ e := by
  intro l
  induction l with
  | nil => intro s _ p hp; cases hp
  | cons q rest ih =>
    intro s h p hp
    obtain ⟨hq, hsb, hrest⟩ := h
    rcases List.mem_cons.mp hp with rfl | hp'
    · have := chainFrom_le hrest
      omega
    · have := ih hrest p hp'
      omega

theorem chainFrom_cover {e : ℤ} :
    ∀ {l : List (ℤ × ℤ)} {s : ℤ}, chainFrom s e l →
      ∀ d : ℤ, (∃ p ∈ l, p.1 ≤ d ∧ d ≤ p.2) ↔ (s ≤ d ∧ d ≤ e) := by
  intro l
  induction l with
  | nil =>
    intro s h d
    simp only [chainFrom] at h
    constructor
    · rintro ⟨p, hp, -⟩; cases hp
    · intro hd; exfalso; omega
  | cons q rest ih =>
    intro s h d
    obtain ⟨hq, hsb, hrest⟩ := h
    constructor
    · rintro ⟨p, hp, hd1, hd2⟩
      rcases List.mem_cons.mp hp with rfl | hp'
      · have := chainFrom_le hrest
        omega
      · have hb := chainFrom_bounds hrest p hp'
        omega
    · rintro ⟨hd1, hd2⟩
      by_cases hdq : d ≤ q.2
      · exact ⟨q, List.mem_cons_self q rest, by omega, hdq⟩
      · obtain ⟨p, hp, h1, h2⟩ := (ih hrest d).mpr (by omega)
        exact ⟨p, List.mem_cons_of_mem q hp, h1, h2⟩

theorem chainFrom_sum {e : ℤ} :
    ∀ {l : List (ℤ × ℤ)} {s : ℤ}, chainFrom s e l →
      ((l.map (fun p => p.2 - p.1 + 1)).sum) = e - s + 1 := by
  intro l
  induction l with
  | nil =>
    intro s h
    simp only [chainFrom] at h
    simp only [List.map_nil, List.sum_nil]
    omega
  | cons q rest ih =>
    intro s h
    obtain ⟨hq, hsb, hrest⟩ := h
    have := ih hrest
    simp only [List.map_cons, List.sum_cons, this, hq]
    ring

theorem chainFrom_pairwise {e : ℤ} :
    ∀ {l : List (ℤ × ℤ)} {s : ℤ}, chainFrom s e l →
      l.Pairwise (fun p q => p.2 < q.1) := by
  intro l
  induction l with
  | nil => intro s _; exact List.Pairwise.nil
  | cons q rest ih =>
    intro s h
    obtain ⟨hq, hsb, hrest⟩ := h
    refine List.Pairwise.cons ?_ (ih hrest)
    intro p hp
    have := (chainFrom_bounds hrest p hp).1
    omega

theorem chunk_ranges_chain (start endD : ℤ) (chunks : ℕ)
    (h : start ≤ endD) (hc : 1 ≤ chunks) :
    chainFrom start endD (chunk_ranges start endD chunks) := by
  unfold chunk_ranges
  exact chunkRangesGo_chain chunks _ endD chunks 0 start (by omega) (by omega) h
    (le_max_left 1 _)

theorem chunkRangesGo_end_lt (chunks : ℕ) (cs endD : ℤ) (rem idx : ℕ) (cst : ℤ)
    (h : endD < cst) (hcs : 1 ≤ cs) :
    chunkRangesGo chunks cs endD (rem + 1) idx cst = [(cst, endD)] := by
  simp only [chunkRangesGo]
  split_ifs with h1 h2 h2
  · rfl
  · exact absurd (by omega : endD < endD + 1) h2
  · push_neg at h1
    exact absurd h1.2 (by omega)
  · push_neg at h1
    exact absurd h1.2 (by omega)

theorem chunk_ranges_end_lt_start (start endD : ℤ) (chunks : ℕ)
    (h : endD < start) (hc : 0 < chunks) :
    chunk_ranges start endD chunks = [(start, endD)] := by
  obtain ⟨n, rfl⟩ : ∃ n, chunks = n + 1 := ⟨chunks - 1, by omega⟩
  unfold chunk_ranges
  exact chunkRangesGo_end_lt _ _ _ _ _ _ h (le_max_left 1 _)

theorem daterange_mem {a b d : ℤ} (hd : d ∈ daterange a b) : a ≤ d ∧ d ≤ b := by
  unfold daterange at hd
  obtain ⟨i, hi, hceq⟩ := List.mem_map.mp hd
  have h1 : i < (b - a + 1).toNat := List.mem_range.mp hi
  omega

theorem daterange_nil {a b : ℤ} (h : b < a) : daterange a b = [] := by
  unfold daterange
  have h0 : (b - a + 1).toNat = 0 := by omega
  simp [h0]

theorem foldl_min_le_init (f : α → ℤ) :
    ∀ (l : List α) (a : ℤ), l.foldl (fun m x => min m (f x)) a ≤ a := by
  intro l
  induction l with
  | nil => intro a; exact le_refl a
  | cons x xs ih =>
    intro a
    simp only [List.foldl_cons]
    exact le_trans (ih (min a (f x))) (min_le_left _ _)

theorem foldl_min_le_mem (f : α → ℤ) :
    ∀ (l : List α) (a : ℤ) {x : α}, x ∈ l → l.foldl (fun m y => min m (f y)) a ≤ f x := by
  intro l
  induction l with
  | nil => intro a x hx; cases hx
  | cons y ys ih =>
    intro a x hx
    simp only [List.foldl_cons]
    rcases List.mem_cons.mp hx with rfl | hx'
    · exact le_trans (foldl_min_le_init f ys _) (min_le_right _ _)
    · exact ih _ hx'

theorem foldl_max_init_le (f : α → ℤ) :
    ∀ (l : List α) (a : ℤ), a ≤ l.foldl (fun m x => max m (f x)) a := by
  intro l
  induction l with
  | nil => intro a; exact le_refl a
  | cons x xs ih =>
    intro a
    simp only [List.foldl_cons]
    exact le_trans (le_max_left _ _) (ih (max a (f x)))

theorem foldl_max_mem_le (f : α → ℤ) :
    ∀ (l : List α) (a : ℤ) {x : α}, x ∈ l → f x ≤ l.foldl (fun m y => max m (f y)) a := by
  intro l
  induction l with
  | nil => intro a x hx; cases hx
  | cons y ys ih =>
    intro a x hx
    simp only [List.foldl_cons]
    rcases List.mem_cons.mp hx with rfl | hx'
    · exact le_trans (le_max_right _ _) (foldl_max_init_le f ys _)
    · exact ih _ hx'

theorem candLo_le {c : CandidateRow} {cs : List CandidateRow} {x : CandidateRow}
    (hx : x ∈ c :: cs) : candLo c cs ≤ x.date_key := by
  unfold candLo
  rcases List.mem_cons.mp hx with rfl | hx'
  · exact foldl_min_le_init (fun r => r.date_key) cs _
  · exact foldl_min_le_mem (fun r => r.date_key) cs _ hx'

theorem le_candHi {c : CandidateRow} {cs : List CandidateRow} {x : CandidateRow}
    (hx : x ∈ c :: cs) : x.date_key ≤ candHi c cs := by
  unfold candHi
  rcases List.mem_cons.mp hx with rfl | hx'
  · exact foldl_max_init_le (fun r => r.date_key) cs _
  · exact foldl_max_mem_le (fun r => r.date_key) cs _ hx'

theorem id_le_maxId {s : Store} {r : FactRow} (hr : r ∈ s.fact) : r.id ≤ maxId s :=
  foldl_max_mem_le (fun r => r.id) s.fact 0 hr

theorem mem_assignIds_id_ge :
    ∀ (l : List CandidateRow) (k : ℤ) {r : FactRow}, r ∈ assignIds k l → k ≤ r.id := by
  intro l
  induction l with
  | nil => intro k r hr; cases hr
  | cons c cs ih =>
    intro k r hr
    rcases List.mem_cons.mp hr with rfl | hr'
    · exact le_refl _
    · have := ih (k + 1) hr'
      omega

theorem mem_assignIds_key :
    ∀ (l : List CandidateRow) (k : ℤ) {x : CandidateRow}, x ∈ l →
      ∃ r ∈ assignIds k l, FactRow.key r = CandidateRow.key x ∧ r.date_key = x.date_key := by
  intro l
  induction l with
  | nil => intro k x hx; cases hx
  | cons c cs ih =>
    intro k x hx
    rcases List.mem_cons.mp hx with rfl | hx'
    · exact ⟨_, List.mem_cons_self _ _, rfl, rfl⟩
    · obtain ⟨r, hr, h1, h2⟩ := ih (k + 1) hx'
      exact ⟨r, List.mem_cons_of_mem _ hr, h1, h2⟩

theorem assignIds_map_id :
    ∀ (l : List CandidateRow) (k : ℤ),
      (assignIds k l).map FactRow.id = (List.range l.length).map (fun i : ℕ => k + (i : ℤ)) := by
  intro l
  induction l with
  | nil => intro k; rfl
  | cons c cs ih =>
    intro k
    simp only [assignIds, List.map_cons, List.length_cons, List.range_succ_eq_map,
      List.map_map, ih]
    refine List.cons_eq_cons.mpr ⟨by simp, ?_⟩
    apply List.map_congr_left
    intro i _
    simp only [Function.comp_apply]
    push_cast
    ring

theorem mem_queryExistingKeys {s : Store} {lo hi : ℤ} {k : ℤ × String × String} :
    k ∈ queryExistingKeys s lo hi ↔
      ∃ r ∈ s.fact, (lo ≤ r.date_key ∧ r.date_key ≤ hi) ∧ FactRow.key r = k := by
  unfold queryExistingKeys
  constructor
  · intro hk
    obtain ⟨r, hr, hkey⟩ := List.mem_map.mp hk
    obtain ⟨hmem, hcond⟩ := List.mem_filter.mp hr
    refine ⟨r, hmem, ?_, hkey⟩
    simpa using hcond
  · rintro ⟨r, hmem, hw, hkey⟩
    exact List.mem_map.mpr ⟨r, List.mem_filter.mpr ⟨hmem, by simpa using hw⟩, hkey⟩

theorem merge_of_newRows_nil {cands : List CandidateRow} {s : Store}
    (h : mergeNewRows cands s = []) : merge cands s = (0, s) := by
  match cands with
  | [] => rfl
  | c :: cs => simp [merge, h]

theorem merge_snd_of_isEmpty {c : CandidateRow} {cs : List CandidateRow} {s : Store}
    (h : (mergeNewRows (c :: cs) s).isEmpty = true) : merge (c :: cs) s = (0, s) := by
  simp only [merge, h, if_true]

theorem merge_fact_of_not_isEmpty {c : CandidateRow} {cs : List CandidateRow} {s : Store}
    (h : ¬(mergeNewRows (c :: cs) s).isEmpty = true) :
    (merge (c :: cs) s).2.fact
      = s.fact ++ assignIds (maxId s + 1) (mergeNewRows (c :: cs) s) := by
  simp [merge, h]

/-- C1: the merge is idempotent — merging the same candidate rows a second
time against the store left by the first merge inserts zero rows and
leaves the store unchanged; so every candidate whose key triple is already
resident is dropped silently and never re-inserted, and an all-duplicate
merge returns an inserted count of 0 without error. -/
theorem merge_idempotent (rows : List CandidateRow) (s : Store) :
    (merge rows (merge rows s).2).1 = 0 ∧ (merge rows (merge rows s).2).2 = (merge rows s).2 := by
  match rows with
  | [] => exact ⟨rfl, rfl⟩
  | c :: cs =>
    have hnil : mergeNewRows (c :: cs) (merge (c :: cs) s).2 = [] := by
      simp only [mergeNewRows]
      rw [List.filter_eq_nil_iff]
      intro x hx
      simp only [decide_eq_true_eq, Decidable.not_not]
      by_cases hemp : (mergeNewRows (c :: cs) s).isEmpty = true
      · have hs1 : (merge (c :: cs) s).2 = s := by rw [merge_snd_of_isEmpty hemp]
        rw [hs1]
        have hn : mergeNewRows (c :: cs) s = [] := List.isEmpty_iff.mp hemp
        simp only [mergeNewRows] at hn
        have := List.filter_eq_nil_iff.mp hn x hx
        simpa using this
      · rw [mem_queryExistingKeys]
        by_cases hdup : x.key ∈ queryExistingKeys s (candLo c cs) (candHi c cs)
        · obtain ⟨r, hr, hw, hk⟩ := mem_queryExistingKeys.mp hdup
          refine ⟨r, ?_, hw, hk⟩
          rw [merge_fact_of_not_isEmpty hemp]
          exact List.mem_append_left _ hr
        · have hxnew : x ∈ mergeNewRows (c :: cs) s := by
            simp only [mergeNewRows]
            exact List.mem_filter.mpr ⟨hx, by simpa using hdup⟩
          obtain ⟨r, hr, hk, hdk⟩ := mem_assignIds_key _ (maxId s + 1) hxnew
          refine ⟨r, ?_, ?_, hk⟩
          · rw [merge_fact_of_not_isEmpty hemp]
            exact List.mem_append_right _ hr
          · rw [hdk]
            exact ⟨candLo_le hx, le_candHi hx⟩
    rw [merge_of_newRows_nil hnil]
    exact ⟨rfl, rfl⟩

theorem merge_fact_drop (cands : List CandidateRow) (s : Store) :
    (merge cands s).2.fact.drop s.fact.length
      = assignIds (maxId s + 1) (mergeNewRows cands s) := by
  match cands with
  | [] => simp [merge, mergeNewRows, assignIds, List.drop_length]
  | c :: cs =>
    by_cases hemp : (mergeNewRows (c :: cs) s).isEmpty = true
    · rw [merge_snd_of_isEmpty hemp, List.isEmpty_iff.mp hemp]
      simp [List.drop_length, assignIds]
    · rw [merge_fact_of_not_isEmpty hemp, List.drop_left]

theorem merge_count (cands : List CandidateRow) (s : Store) :
    (merge cands s).1 = (mergeNewRows cands s).length := by
  match cands with
  | [] => rfl
  | c :: cs =>
    by_cases hemp : (mergeNewRows (c :: cs) s).isEmpty = true
    · rw [merge_snd_of_isEmpty hemp, List.isEmpty_iff.mp hemp]
      rfl
    · simp [merge, hemp]

theorem merge_fact_take_self (cands : List CandidateRow) (s : Store) :
    (merge cands s).2.fact.take s.fact.length = s.fact := by
  match cands with
  | [] => exact List.take_length s.fact
  | c :: cs =>
    by_cases hemp : (mergeNewRows (c :: cs) s).isEmpty = true
    · rw [merge_snd_of_isEmpty hemp]
      exact List.take_length s.fact
    · rw [merge_fact_of_not_isEmpty hemp, List.take_left]

/-- C3: for every start ≤ end and chunk count ≥ 1, `chunk_ranges` returns
inclusive sub-ranges, in chronological order, whose union is exactly
[start, end] with no gaps and no overlaps, and whose lengths sum to
(end - start) + 1; the degenerate case (more chunks than days) is included. -/
theorem chunk_ranges_partition (start endD : ℤ) (chunks : ℕ)
    (hse : start ≤ endD) (hc : 1 ≤ chunks) :
    (∀ d : ℤ,
        (∃ p ∈ chunk_ranges start endD chunks, p.1 ≤ d ∧ d ≤ p.2) ↔ (start ≤ d ∧ d ≤ endD))
    ∧ (chunk_ranges start endD chunks).Pairwise (fun p q => p.2 < q.1)
    ∧ ((chunk_ranges start endD chunks).map (fun p => p.2 - p.1 + 1)).sum = endD - start + 1
    ∧ ∀ p ∈ chunk_ranges start endD chunks, p.1 ≤ p.2 := by
  have h := chunk_ranges_chain start endD chunks hse hc
  exact ⟨chainFrom_cover h, chainFrom_pairwise h, chainFrom_sum h,
    fun p hp => ((chainFrom_bounds h p hp).2).1⟩

/-- Witness for C3 at start = 0, end = 9, chunks = 30 (degenerate: more
chunks than days). -/
theorem chunk_ranges_partition_witness :
    ((0 : ℤ) ≤ 9 ∧ 1 ≤ 30)
    ∧ ((∀ d : ℤ, (∃ p ∈ chunk_ranges 0 9 30, p.1 ≤ d ∧ d ≤ p.2) ↔ ((0 : ℤ) ≤ d ∧ d ≤ 9))
      ∧ (chunk_ranges 0 9 30).Pairwise (fun p q => p.2 < q.1)
      ∧ ((chunk_ranges 0 9 30).map (fun p => p.2 - p.1 + 1)).sum = 9 - 0 + 1
      ∧ ∀ p ∈ chunk_ranges 0 9 30, p.1 ≤ p.2) :=
  ⟨⟨by decide, by decide⟩, chunk_ranges_partition 0 9 30 (by decide) (by decide)⟩

/-- C6 counterexample: with end < start the planner does not fail — the
code defines no `InvalidRangeError` — and returns a range list anyway
(here the single reversed pair). -/
theorem chunk_ranges_reversed_returns_range : chunk_ranges 1 0 3 = [(1, 0)] := by
  decide

/-- C6 amended: for end < start, `chunk_ranges` raises nothing and returns
the single pair (start, end); walking that pair with `daterange` yields no
dates. -/
theorem chunk_ranges_reversed_behavior (start endD : ℤ) (chunks : ℕ)
    (h : endD < start) (hc : 1 ≤ chunks) :
    chunk_ranges start endD chunks = [(start, endD)] ∧ daterange start endD = [] :=
  ⟨chunk_ranges_end_lt_start start endD chunks h (by omega), daterange_nil h⟩

/-- Witness for the amended C6 at start = 1, end = 0, chunks = 5. -/
theorem chunk_ranges_reversed_behavior_witness :
    ((0 : ℤ) < 1 ∧ 1 ≤ 5)
    ∧ (chunk_ranges 1 0 5 = [(1, 0)] ∧ daterange 1 0 = []) :=
  ⟨⟨by decide, by decide⟩, chunk_ranges_reversed_behavior 1 0 5 (by decide) (by decide)⟩

/-- C10: the backfill start date is clamped at 1999-01-01 — whenever
end − years·365 + 1 falls before 1999-01-01 the walk starts at
1999-01-01 — and consequently no date the walk visits (for any chunk
configuration) precedes 1999-01-01. -/
theorem backfill_clamped_at_1999 (endDate : ℤ) (years chunks : ℕ) (hc : 1 ≤ chunks) :
    (endDate - (years : ℤ) * 365 + 1 < epoch1999 →
        computeStartDate endDate years = epoch1999)
    ∧ ∀ d ∈ datesWalked (computeStartDate endDate years) endDate chunks, epoch1999 ≤ d := by
  have hstart : epoch1999 ≤ computeStartDate endDate years := by
    simp only [computeStartDate]
    split_ifs with h
    · exact le_refl _
    · omega
  constructor
  · intro h
    simp only [computeStartDate]
    rw [if_pos h]
  · intro d hd
    rcases le_or_lt (computeStartDate endDate years) endDate with hle | hlt
    · have hchain := chunk_ranges_chain _ endDate chunks hle hc
      unfold datesWalked at hd
      obtain ⟨p, hp, hdp⟩ := List.mem_flatMap.mp hd
      have hb := chainFrom_bounds hchain p hp
      have hm := daterange_mem hdp
      omega
    · unfold datesWalked at hd
      rw [chunk_ranges_end_lt_start _ endDate chunks hlt (by omega)] at hd
      simp only [List.flatMap_cons, List.flatMap_nil, List.append_nil] at hd
      rw [daterange_nil hlt] at hd
      cases hd

/-- Witness for C10: yesterday = 100 days after 1999-01-01, ten years of
backfill, five chunks; the raw start falls before 1999-01-01, so the clamp
fires and every walked date is on or after 1999-01-01. -/
theorem backfill_clamped_at_1999_witness :
    (1 ≤ 5)
    ∧ ((epoch1999 + 100 - ((10 : ℕ) : ℤ) * 365 + 1 < epoch1999 →
        computeStartDate (epoch1999 + 100) 10 = epoch1999)
      ∧ ∀ d ∈ datesWalked (computeStartDate (epoch1999 + 100) 10) (epoch1999 + 100) 5,
          epoch1999 ≤ d) :=
  ⟨by decide, backfill_clamped_at_1999 (epoch1999 + 100) 10 5 (by decide)⟩

/-- C5: the rows a merge appends are exactly the non-duplicate candidates,
in candidate order, carrying the contiguous id block
max-id + 1, ..., max-id + N; and no row present after one merge shares an
id with any row appended by a subsequent merge against the same store. -/
theorem merge_id_assignment (cands : List CandidateRow) (s : Store) :
    ((merge cands s).2.fact.drop s.fact.length
        = assignIds (maxId s + 1) (mergeNewRows cands s))
    ∧ (((merge cands s).2.fact.drop s.fact.length).map FactRow.id
        = (List.range (merge cands s).1).map (fun i : ℕ => maxId s + 1 + (i : ℤ)))
    ∧ ∀ (cands₂ : List CandidateRow) (r r' : FactRow), r ∈ (merge cands s).2.fact →
        r' ∈ (merge cands₂ (merge cands s).2).2.fact.drop ((merge cands s).2.fact.length) →
        r.id ≠ r'.id := by
  refine ⟨merge_fact_drop cands s, ?_, ?_⟩
  · rw [merge_fact_drop cands s, assignIds_map_id, merge_count]
  · intro cands₂ r r' hr hr'
    rw [merge_fact_drop cands₂ (merge cands s).2] at hr'
    have h1 := mem_assignIds_id_ge _ _ hr'
    have h2 := id_le_maxId hr
    omega

/-- C9 counterexample: the `dim_currency` MERGE does update a resident
row — a row present in the target before the operation has its
`currency_name` overwritten from the staged data. -/
theorem dim_currency_merge_updates_resident_row :
    dimCurrencyMerge
        [{ currency_key := 1, currency_code := ("EUR"), currency_name := some ("Euro") }]
        [{ currency_key := 1, currency_code := ("EUR"), currency_name := some ("Euro (updated)") }]
      = [{ currency_key := 1, currency_code := ("EUR"), currency_name := some ("Euro (updated)") }] := by
  decide

theorem take_length_map_append (f : α → β) (l : List α) (r : List β) :
    (l.map f ++ r).take l.length = l.map f := by
  have h := List.take_left (l.map f) r
  rwa [List.length_map] at h

theorem dimCurrencyMerge_take (target stage : List CurrencyRow) :
    ((dimCurrencyMerge target stage).take target.length).map
        (fun r => (r.currency_key, r.currency_code))
      = target.map (fun r => (r.currency_key, r.currency_code)) := by
  unfold dimCurrencyMerge
  rw [take_length_map_append, List.map_map]
  apply List.map_congr_left
  intro t _
  simp only [Function.comp_apply]
  cases stage.find? (fun s => decide (s.currency_code = t.currency_code)) <;> rfl

/-- C9 amended: the fact merge never updates or drops rows already in the
store (they survive in place, duplicates being discarded rather than
overwriting); the `dim_currency` MERGE keeps each resident row's
`currency_key` and `currency_code` but may overwrite its
`currency_name` from the staged data. -/
theorem resident_rows_stable (cands : List CandidateRow) (s : Store)
    (target stage : List CurrencyRow) :
    (merge cands s).2.fact.take s.fact.length = s.fact
    ∧ ((dimCurrencyMerge target stage).take target.length).map
        (fun r => (r.currency_key, r.currency_code))
      = target.map (fun r => (r.currency_key, r.currency_code)) :=
  ⟨merge_fact_take_self cands s, dimCurrencyMerge_take target stage⟩

/-- C7: for every date the calendar builder computes
date_key = year·10000 + month·100 + day; day_of_week lies in 1..7 with
Monday = 1 (ISO: pandas dayofweek + 1); week_start_date is the date minus
(day_of_week − 1) days; and is_weekend holds exactly for day_of_week 6 or
7.  In particular 2024-01-01 is day 1 (Monday), 2024-01-07 is day 7
(Sunday), 2024-01-06 is a weekend day, and its week starts on 2024-01-01. -/
theorem calendar_conventions :
    (∀ d : CivilDate,
        (calRow d).date_key = d.year * 10000 + d.month * 100 + d.day
        ∧ (1 ≤ (calRow d).day_of_week ∧ (calRow d).day_of_week ≤ 7)
        ∧ (calRow d).week_start_date = subDays d ((calRow d).day_of_week - 1)
        ∧ ((calRow d).is_weekend = true ↔
            (calRow d).day_of_week = 6 ∨ (calRow d).day_of_week = 7))
    ∧ (calRow { year := 2024, month := 1, day := 1 }).day_of_week = 1
    ∧ (calRow { year := 2024, month := 1, day := 7 }).day_of_week = 7
    ∧ (calRow { year := 2024, month := 1, day := 6 }).is_weekend = true
    ∧ (calRow { year := 2024, month := 1, day := 6 }).week_start_date
        = { year := 2024, month := 1, day := 1 } := by
  refine ⟨?_, by decide, by decide, by decide, by decide⟩
  intro d
  have hw0 : 0 ≤ pyWeekday d := Int.emod_nonneg _ (by norm_num)
  have hw7 : pyWeekday d < 7 := Int.emod_lt_of_pos _ (by norm_num)
  refine ⟨rfl, ?_, ?_, ?_⟩
  · show 1 ≤ pyWeekday d + 1 ∧ pyWeekday d + 1 ≤ 7
    omega
  · show subDays d (pyWeekday d) = subDays d (pyWeekday d + 1 - 1)
    norm_num
  · show (decide (pyWeekday d + 1 = 6) || decide (pyWeekday d + 1 = 7)) = true ↔
      pyWeekday d + 1 = 6 ∨ pyWeekday d + 1 = 7
    simp [Bool.or_eq_true, decide_eq_true_eq]

/-- C8: loading the payload cache from a nonexistent, truncated/corrupt,
or non-array JSON source yields the empty payload list and the empty
known-dates set instead of an error. -/
theorem load_tolerates_bad_source :
    load_existing_records .missing = ([], [])
    ∧ load_existing_records .invalid = ([], [])
    ∧ ∀ v : JValue, v.isArray = false → load_existing_records (.ok v) = ([], []) := by
  refine ⟨rfl, rfl, ?_⟩
  intro v hv
  cases v with
  | arr l => simp [JValue.isArray] at hv
  | null => rfl
  | bool b => rfl
  | num q => rfl
  | str s => rfl
  | obj fields => rfl

/-- Witness for C8: a decoded-but-non-array source (as a truncated write
that still decodes would produce) yields the empty cache. -/
theorem load_tolerates_bad_source_witness :
    JValue.isArray (JValue.num 0) = false
      ∧ load_existing_records (.ok (JValue.num 0)) = ([], []) :=
  ⟨rfl, load_tolerates_bad_source.2.2 (JValue.num 0) rfl⟩

/-- The warehouse with both tables empty (fresh dataset). -/
def emptyStore : Store := { fact := [], dim_time := [] }

/-- A one-payload input batch for 2024-01-02. -/
def batchJan2 : List JValue :=
  [JValue.obj [(("base"), JValue.str ("AUD")), (("date"), JValue.str ("2024-01-02")),
    (("rates"), JValue.obj [(("USD"), JValue.num 1)])]]

/-- A one-payload input batch for 2024-01-01 only. -/
def batchJan1 : List JValue :=
  [JValue.obj [(("base"), JValue.str ("AUD")), (("date"), JValue.str ("2024-01-01")),
    (("rates"), JValue.obj [(("USD"), JValue.num 1)])]]

/-- Warehouse state after a completed ETL run on `batchJan2` from empty. -/
def storeAfterJan2 : Store :=
  match runETL batchJan2 emptyStore with
  | some p => p.2
  | none => emptyStore

/-- Warehouse state after then completing an ETL run on `batchJan1`. -/
def storeAfterJan1 : Store :=
  match runETL batchJan1 storeAfterJan2 with
  | some p => p.2
  | none => emptyStore

/-- C2: violated by the code.  Both runs complete, yet after the second —
whose batch covers only 2024-01-01 while the fact table already holds a
2024-01-02 row — the truncate-reloaded `dim_time` contains no row for the
2024-01-02 fact row's date_key: a completed run leaves a previously
inserted fact row with no calendar row. -/
theorem run_leaves_fact_without_calendar_row :
    (runETL batchJan2 emptyStore).isSome = true
    ∧ (runETL batchJan1 storeAfterJan2).isSome = true
    ∧ storeAfterJan1.fact.any
        (fun r => storeAfterJan1.dim_time.all (fun c => decide (c.date_key ≠ r.date_key)))
      = true :=
  ⟨by decide, by decide, by decide⟩

/-- An entry the pipeline contributes no rows for: not a dict, `rates`
missing or not a dict, or an entry-level `date` that is missing or fails
to parse (every row of such an entry is removed by the `dropna`). -/
def badEntry (e : JValue) : Bool :=
  match e with
  | .obj fields =>
    match jGet fields ("rates") with
    | some (.obj _) => (parseDateField (jGet fields ("date"))).isNone
    | _ => true
  | _ => true

theorem cleanRows_append (l₁ l₂ : List RawRow) :
    cleanRows (l₁ ++ l₂) = cleanRows l₁ ++ cleanRows l₂ :=
  List.filterMap_append l₁ l₂ _

theorem cleanRows_entryRows_eq_nil {e : JValue} (h : badEntry e = true) :
    cleanRows (entryRows e) = [] := by
  cases e with
  | obj fields =>
    simp only [badEntry] at h
    simp only [entryRows]
    cases hr : jGet fields ("rates") with
    | none => rfl
    | some v =>
      rw [hr] at h
      cases v with
      | obj rates =>
        have hnone : parseDateField (jGet fields ("date")) = none :=
          Option.isNone_iff_eq_none.mp (by simpa using h)
        unfold cleanRows
        rw [List.filterMap_eq_nil_iff]
        intro r hrmem
        obtain ⟨tr, _, rfl⟩ := List.mem_map.mp hrmem
        simp [hnone]
      | null => rfl
      | bool b => rfl
      | num q => rfl
      | str s => rfl
      | arr l => rfl
  | null => rfl
  | bool b => rfl
  | num q => rfl
  | str s => rfl
  | arr l => rfl

/-- The single-entry batch with `rates` and a parsable `date` but no
`base` field. -/
def missingBaseBatch : List JValue :=
  [JValue.obj [(("date"), JValue.str ("2024-01-01")),
    (("rates"), JValue.obj [(("USD"), JValue.num 1)])]]

/-- C4 counterexample: an entry whose `base` field is missing is NOT
dropped — its row survives the whole flatten/parse/sort stage, with a
null base. -/
theorem missing_base_entry_kept :
    (pipelineRows missingBaseBatch).length = 1
    ∧ (pipelineRows missingBaseBatch).all (fun r => r.base_currency.isNone) = true :=
  ⟨by decide, by decide⟩

/-- C4 amended: an entry that is not a dict, or whose `rates` is missing
or not a mapping, or whose `date` is missing or fails to parse as a
calendar date, is dropped silently and does not affect the rows produced
for the other entries of the batch.  (A missing `base` does not drop an
entry; see the counterexample.) -/
theorem malformed_entries_dropped (pre post : List JValue) (e : JValue)
    (he : badEntry e = true) :
    pipelineRows (pre ++ e :: post) = pipelineRows (pre ++ post) := by
  unfold pipelineRows
  have h1 : flatten (pre ++ e :: post) = flatten pre ++ (entryRows e ++ flatten post) := by
    unfold flatten
    rw [List.flatMap_append, List.flatMap_cons]
  have h2 : flatten (pre ++ post) = flatten pre ++ flatten post := by
    unfold flatten
    rw [List.flatMap_append]
  rw [h1, h2, cleanRows_append, cleanRows_append, cleanRows_append,
    cleanRows_entryRows_eq_nil he, List.nil_append]

/-- A well-formed sibling payload entry. -/
def goodEntry : JValue :=
  JValue.obj [(("base"), JValue.str ("AUD")), (("date"), JValue.str ("2024-01-03")),
    (("rates"), JValue.obj [(("USD"), JValue.num 2)])]

/-- A malformed payload entry: its `rates` is a string, not a mapping. -/
def badRatesEntry : JValue :=
  JValue.obj [(("base"), JValue.str ("AUD")), (("rates"), JValue.str ("oops"))]

/-- Witness for the amended C4: dropping the malformed entry leaves the
sibling valid entry's rows untouched. -/
theorem malformed_entries_dropped_witness :
    badEntry badRatesEntry = true
    ∧ pipelineRows ([goodEntry] ++ badRatesEntry :: []) = pipelineRows ([goodEntry] ++ []) :=
  ⟨by decide, malformed_entries_dropped [goodEntry] [] badRatesEntry (by decide)⟩
